import Mathlib

/-!
Shallow embedding of the telingo temporal-program rewriter and incremental
solving loop (src/telingo/transformers.py and src/telingo/__init__.py).

Predicate and part names are modelled as lists of characters; the temporal
marker character (ASCII 39) is written via Char.ofNat to keep the file free of
quote literals.
-/

/-- Predicate, part and variable names (Python strings). -/
abbrev Name := List Char

/-- The temporal marker character used in functor names (ASCII 39). -/
def prime : Char := Char.ofNat 39

/-- Python name.strip of the marker character: drop leading and trailing
marker characters (transformers.py line 121). -/
def stripQuotes (s : Name) : Name :=
  (((s.dropWhile (fun c => c == prime)).reverse).dropWhile (fun c => c == prime)).reverse

/-- Length of the maximal run of leading marker characters, the loop of
transformers.py lines 123-127 counts these into an initial negative shift. -/
def leadMarks (s : Name) : Nat :=
  (s.takeWhile (fun c => c == prime)).length

/-- Net temporal shift of a functor name, following transformers.py lines
121-128: shift starts at minus the number of leading markers and the final
update is shift plus (len(name) - len(stripped) + shift). -/
def computeShift (name : Name) : Int :=
  let n := stripQuotes name
  let shift : Int := -(leadMarks name : Int)
  shift + (((name.length : Int) - (n.length : Int)) + shift)

/-- The reserved future placeholder marker prepended to redirected predicate
names (transformers.py line 9). -/
def futurePre : Name := "__future_".data

/-- The time parameter name (transformers.py line 11). -/
def timeParamName : Name := "__t".data

/-- The variable stem used for synthesized rule variables
(transformers.py line 10). -/
def varPre : Name := "X".data

/-- Clingo symbols appearing inside rewritten terms: the time parameter
constant and integer shifts. -/
inductive CSym
  | func (name : Name) (args : List CSym)
  | num (k : Int)

/-- Term AST nodes produced by the rewriter: Symbol nodes wrapping a clingo
symbol, bare variable names, and Plus binary operations. -/
inductive STerm
  | sym (s : CSym)
  | var (v : Name)
  | plus (a b : STerm)

/-- The Symbol node holding the time parameter (clingo.Function of the time
parameter name). -/
def timeParam : STerm := STerm.sym (CSym.func timeParamName [])

/-- Keys of the future predicate registry: stripped name, original arity,
positive shift. -/
abbrev FKey := Name × Nat × Int

/-- The future predicate registry, a Python dict preserving insertion order,
mapping keys to the disjunctive flag. -/
abbrev FutureMap := List (FKey × Bool)

/-- Python dict read: first binding of the key, if any. -/
def dictGet : FutureMap → FKey → Option Bool
  | [], _ => none
  | (k2, v) :: m, k => if k2 = k then some v else dictGet m k

/-- Python dict write m[k] = v: update in place if present, else append. -/
def dictSet : FutureMap → FKey → Bool → FutureMap
  | [], k, v => [(k, v)]
  | (k2, v2) :: m, k, v =>
    if k2 = k then (k2, v) :: m else (k2, v2) :: dictSet m k v

/-- Python dict setdefault m.setdefault(k, v): insert v only if k is absent. -/
def dictSetdefault (m : FutureMap) (k : FKey) (v : Bool) : FutureMap :=
  if (dictGet m k).isSome then m else m ++ [(k, v)]

/-- Replace the last element of a list, as Python params[-1] = f(params[-1]). -/
def mapLast (f : STerm → STerm) : List STerm → List STerm
  | [] => []
  | [x] => [f x]
  | x :: xs => x :: mapLast f xs

/-- Errors raised by the term rewriter (transformers.py lines 132-135). -/
inductive TErr
  | futureErr
  | pastErr
deriving DecidableEq

/-- Mutable state threaded through the term transformer: the future predicate
registry and the one-element max_shift accumulator. -/
structure TTState where
  future_predicates : FutureMap
  max_shift : Int
deriving DecidableEq

/-- TermTransformer.__get_param (transformers.py lines 82-148): strips the
temporal markers, computes the shift, raises in forbidden contexts, redirects
positive-shift atoms to the future placeholder when requested, and returns the
new name together with the time arguments to append. -/
def getParam (st : TTState) (name : Name) (arity : Nat)
    (replace_future fail_future fail_past disjunctive : Bool) :
    Except TErr ((Name × List STerm) × TTState) :=
  let n := stripQuotes name
  let shift := computeShift name
  let params := [timeParam]
  if shift ≠ 0 then
    if fail_future && decide (0 < shift) then Except.error TErr.futureErr
    else if fail_past && decide (shift < 0) then Except.error TErr.pastErr
    else
      let res :=
        if 0 < shift then
          if replace_future then
            let key : FKey := (n, arity, shift)
            let fp :=
              if disjunctive then dictSet st.future_predicates key true
              else dictSetdefault st.future_predicates key false
            ((futurePre ++ n, STerm.sym (CSym.num shift) :: params),
             { st with future_predicates := fp })
          else ((n, params), { st with max_shift := max st.max_shift shift })
        else ((n, params), st)
      Except.ok
        ((res.1.1, mapLast (fun t => STerm.plus t (STerm.sym (CSym.num shift))) res.1.2),
         res.2)
  else Except.ok ((n, params), st)

/-- A Function term of the AST: functor name and argument list. -/
structure FuncT where
  name : Name
  arguments : List STerm

/-- TermTransformer.visit_Function (transformers.py lines 150-158): rewrites
the name via __get_param and extends the argument list with the returned
time parameters. -/
def visitFunction (st : TTState) (t : FuncT)
    (replace_future fail_future fail_past disjunctive : Bool) :
    Except TErr (FuncT × TTState) :=
  match getParam st t.name t.arguments.length replace_future fail_future fail_past disjunctive with
  | Except.error e => Except.error e
  | Except.ok ((n, params), st2) => Except.ok (⟨n, t.arguments ++ params⟩, st2)

/-- ProgramTransformer.visit_SymbolicAtom (transformers.py line 293): the term
transformer is invoked with replace_future = head,
fail_future = (not head and not constraint), fail_past = head and
disjunctive = (head and disjunction). -/
def visitSymbolicAtom (st : TTState) (t : FuncT) (head constraint disjunction : Bool) :
    Except TErr (FuncT × TTState) :=
  visitFunction st t head (!head && !constraint) head (head && disjunction)

/-- Symbolic atoms of synthesized statements: functor name and arguments.  All
literals generated by transform carry no sign, so atoms stand for literals. -/
structure AFun where
  name : Name
  args : List STerm

/-- Statements of the transformed program: program directives, rules, external
declarations, and rewritten input statements kept opaque. -/
inductive Stmt
  | program (name : Name) (pars : List Name)
  | rule (head : AFun) (body : List AFun)
  | exdecl (head : AFun) (body : List AFun)
  | input (idx : Nat)

/-- The name of the synthesized static program part. -/
def staticName : Name := "static".data

/-- Root name of dynamic program parts. -/
def dynamicName : Name := "dynamic".data

/-- Root name of initial program parts. -/
def initialName : Name := "initial".data

/-- Variable of index i used by the auxiliary rules, the Python string
"X{i}". -/
def mkVar (i : Nat) : STerm := STerm.var (varPre ++ (Nat.repr i).data)

/-- The statements transform appends for one registered future predicate key
(transformers.py lines 378-391): for disjunctive keys an external declaration
and a linking rule, and in every case the restoration rule. -/
def statementsForKey (key : FKey) (disjunctive : Bool) : List Stmt :=
  let name := key.1
  let arity := key.2.1
  let shift := key.2.2
  let vs := (List.range arity).map mkVar
  let t := STerm.sym (CSym.func timeParamName [])
  let s := STerm.sym (CSym.num shift)
  let t_shifted := STerm.plus t s
  let p_current : AFun := ⟨name, vs ++ [t]⟩
  let f_current : AFun := ⟨futurePre ++ name, vs ++ [s, t]⟩
  (if disjunctive then
    [Stmt.exdecl ⟨name, vs ++ [t_shifted]⟩
       [⟨futurePre ++ name, vs ++ [s, t_shifted]⟩],
     Stmt.rule ⟨futurePre ++ name, vs ++ [s, t_shifted]⟩
       [⟨name, vs ++ [t_shifted]⟩]]
   else []) ++ [Stmt.rule p_current [f_current]]

/-- Descriptors of parts to reground for future-referencing constraints; the
returned list is always empty (transformers.py lines 395-398). -/
abbrev RegroundPart := Name × Name × Int

/-- The tail of transform (transformers.py lines 374-411): given the rewritten
input statements and the future predicate registry built during the visiting
pass, append the synthesized static program part and the per-key auxiliary
statements, collect the future signatures, and return the empty reground
list. -/
def transformPost (ret0 : List Stmt) (fp : FutureMap) :
    List Stmt × List (Name × Nat) × List RegroundPart :=
  let pieces :=
    if 0 < fp.length then
      (Stmt.program staticName [timeParamName] ::
         fp.flatMap (fun p => statementsForKey p.1 p.2),
       fp.map (fun p => (futurePre ++ p.1.1, p.1.2.1 + 2)))
    else ([], [])
  (ret0 ++ pieces.1, pieces.2, [])

/-- Result flags of one solve call. -/
structure SolveResult where
  satisfiable : Bool
  unsatisfiable : Bool
  unknown : Bool

/-- A grounded atom as seen through symbolic_atoms.by_signature: its numeric
arguments and its solver literal. -/
structure GAtom where
  args : List Int
  literal : Int

/-- The collaborator engine as seen by imain: the grounded atoms matching a
signature at each step, and the result of the solve call at each step. -/
structure Oracle where
  atoms : Nat → Name × Nat → List GAtom
  result : Nat → SolveResult

/-- Observable interactions of imain with the engine. -/
inductive Event
  | ground (parts : List (Name × List Int))
  | release (step : Nat)
  | cleanup
  | assign (step : Nat) (val : Bool)
  | solve (step : Nat) (assumptions : List Int)

/-- Value of the trailing time argument of a grounded atom. -/
def lastTime (a : GAtom) : Int := (a.args.getLast?).getD 0

/-- The assumption list built before the solve call at the given step
(telingo/__init__.py lines 57-61): one negative literal for every atom of a
future signature whose trailing time argument exceeds the step. -/
def assumptionsAt (oracle : Oracle) (sigs : List (Name × Nat)) (step : Nat) : List Int :=
  sigs.flatMap (fun sg =>
    ((oracle.atoms step sg).filter (fun a => decide ((step : Int) < lastTime a))).map
      (fun a => -a.literal))

/-- Grounding condition for one part descriptor and offset
(telingo/__init__.py lines 47-49). -/
def partCond (root_name : Name) (step i : Int) : Bool :=
  (decide (0 ≤ step - i) && (root_name == staticName)) ||
  (decide (0 < step - i) && (root_name == dynamicName)) ||
  ((step - i == 0) && (root_name == initialName))

/-- The program parts grounded at one step (telingo/__init__.py lines 44-50). -/
def computeParts (program_parts : List (Name × Name × List Int)) (step : Int) :
    List (Name × List Int) :=
  program_parts.flatMap (fun p =>
    (p.2.2.filter (fun i => partCond p.1 step i)).map (fun i => (p.2.1, [step - i, step])))

/-- The stop criterion disjunction of the while condition
(telingo/__init__.py lines 41-43). -/
def stopFlags (istop : String) (r : SolveResult) : Bool :=
  (istop == "SAT" && !r.satisfiable) ||
  (istop == "UNSAT" && !r.unsatisfiable) ||
  (istop == "UNKNOWN" && !r.unknown)

/-- The while condition of imain (telingo/__init__.py lines 39-43); ret is
None only before the first iteration, where the step == 0 disjunct
short-circuits the access. -/
def loopCond (imin : Nat) (imax : Option Nat) (istop : String) (step : Nat)
    (ret : Option SolveResult) : Bool :=
  (match imax with | none => true | some m => decide (step < m)) &&
  ((step == 0) || decide (step < imin) ||
    (match ret with | none => false | some r => stopFlags istop r))

/-- The engine interactions of one iteration of imain at the given step
(telingo/__init__.py lines 44-62). -/
def imainStepEvents (oracle : Oracle) (sigs : List (Name × Nat))
    (parts : List (Name × Name × List Int)) (step : Nat) : List Event :=
  (if 0 < step then [Event.release (step - 1), Event.cleanup] else []) ++
  [Event.ground (computeParts parts (step : Int)),
   Event.assign step true,
   Event.solve step (assumptionsAt oracle sigs step)]

/-- Fuel-indexed unfolding of the while loop of imain from a given step and
previous result. -/
def imainAux (oracle : Oracle) (sigs : List (Name × Nat))
    (parts : List (Name × Name × List Int)) (imin : Nat) (imax : Option Nat)
    (istop : String) : Nat → Nat → Option SolveResult → List Event
  | 0, _, _ => []
  | fuel + 1, step, ret =>
    if loopCond imin imax istop step ret then
      imainStepEvents oracle sigs parts step ++
        imainAux oracle sigs parts imin imax istop fuel (step + 1) (some (oracle.result step))
    else []

/-- The full interaction trace of imain started at step 0 with ret = None. -/
def imainTrace (oracle : Oracle) (sigs : List (Name × Nat))
    (parts : List (Name × Name × List Int)) (imin : Nat) (imax : Option Nat)
    (istop : String) (fuel : Nat) : List Event :=
  imainAux oracle sigs parts imin imax istop fuel 0 none

/-- The steps at which solve calls occur, in trace order. -/
def solveSteps (tr : List Event) : List Nat :=
  tr.filterMap (fun e => match e with | Event.solve s _ => some s | _ => none)

/-- Number of solve calls in a trace. -/
def countSolves (tr : List Event) : Nat := (solveSteps tr).length

/-- Effect of one engine interaction on the set of finality markers currently
assigned true, represented as a duplicate-free list of steps. -/
def stepFinals (cur : List Nat) : Event → List Nat
  | Event.assign s true => if s ∈ cur then cur else cur ++ [s]
  | Event.assign s false => cur.erase s
  | Event.release s => cur.erase s
  | _ => cur

/-- Finality markers assigned true after a trace. -/
def finalsTrue (tr : List Event) : List Nat := tr.foldl stepFinals []

/-- Python errors relevant to the Application.main call of transform. -/
inductive PyErr
  | typeError
  | valueError
deriving DecidableEq

/-- Outcome of Application.main: an error raised before the loop, or the
interaction trace of the loop. -/
inductive MainOutcome
  | errored (e : PyErr)
  | ran (trace : List Event)

/-- Number of parameters of transform (transformers.py line 331). -/
def transformParamCount : Nat := 1

/-- Number of arguments Application.main passes to transform
(telingo/__init__.py line 151). -/
def mainCallArgCount : Nat := 2

/-- Number of components of the tuple transform returns
(transformers.py line 411). -/
def transformResultArity : Nat := 3

/-- Number of names Application.main unpacks from the transform call
(telingo/__init__.py line 151). -/
def mainUnpackCount : Nat := 2

/-- Application.main (telingo/__init__.py lines 140-153): calling transform
with a mismatched argument count raises TypeError; unpacking a mismatched
tuple raises ValueError; only then would imain run.  The signatures and parts
the call would produce are abstracted as parameters. -/
def applicationMain (oracle : Oracle) (imin : Nat) (imax : Option Nat) (istop : String)
    (fuel : Nat) (sigs : List (Name × Nat)) (parts : List (Name × Name × List Int)) :
    MainOutcome :=
  if mainCallArgCount ≠ transformParamCount then MainOutcome.errored PyErr.typeError
  else if mainUnpackCount ≠ transformResultArity then MainOutcome.errored PyErr.valueError
  else MainOutcome.ran (imainTrace oracle sigs parts imin imax istop fuel)

/-- An engine with no grounded atoms whose solve calls report satisfiable. -/
def oracle0 : Oracle :=
  ⟨fun _ _ => [], fun _ => ⟨true, false, false⟩⟩

/-- A small concrete engine used to witness the assumption characterization:
two grounded atoms for the signature (f, 2), one with trailing time 2 and one
with trailing time 0. -/
def oracle1 : Oracle :=
  ⟨fun _ sg => if sg = (⟨[Char.ofNat 102], 2⟩ : Name × Nat) then
      [⟨[1, 2], 7⟩, ⟨[0, 0], 8⟩] else [],
   fun _ => ⟨true, false, false⟩⟩

/-- A concrete engine with a single grounded atom for the placeholder
signature of the predicate p at arity 0 plus 2, whose trailing time argument
is 2. -/
def oracle2 : Oracle :=
  ⟨fun _ sg => if sg = ((futurePre ++ [Char.ofNat 112], 2) : Name × Nat) then
      [⟨[1, 2], 7⟩] else [],
   fun _ => ⟨true, false, false⟩⟩

/-- Dropping marker characters skips a leading block of markers. -/
theorem dropMarks_replicate (L : Nat) (l : Name) :
    (List.replicate L prime ++ l).dropWhile (fun c => c == prime) =
      l.dropWhile (fun c => c == prime) := by
  induction L with
  | zero => simp
  | succ L ih => simp [List.replicate_succ, ih]

/-- Dropping marker characters is the identity when the head is not a
marker. -/
theorem dropMarks_of_head (l : Name) (h : l.head? ≠ some prime) :
    l.dropWhile (fun c => c == prime) = l := by
  cases l with
  | nil => rfl
  | cons c cs =>
    have hc : ¬ (c == prime) = true := by
      intro hcp
      exact h (by simp_all)
    simp [List.dropWhile_cons, hc]

/-- Stripping markers from a name made of L leading markers, a clean core and
T trailing markers recovers the core. -/
theorem stripQuotes_eq (L T : Nat) (core : Name) (h0 : core ≠ [])
    (h1 : core.head? ≠ some prime) (h2 : core.getLast? ≠ some prime) :
    stripQuotes (List.replicate L prime ++ core ++ List.replicate T prime) = core := by
  unfold stripQuotes
  rw [List.append_assoc, dropMarks_replicate]
  have hh : (core ++ List.replicate T prime).head? ≠ some prime := by
    cases core with
    | nil => exact absurd rfl h0
    | cons c cs => simpa using h1
  rw [dropMarks_of_head _ hh, List.reverse_append, List.reverse_replicate,
    dropMarks_replicate, dropMarks_of_head, List.reverse_reverse]
  rw [List.head?_reverse]
  exact h2

/-- Taking marker characters keeps a leading block of markers. -/
theorem takeMarks_replicate (L : Nat) (l : Name) :
    (List.replicate L prime ++ l).takeWhile (fun c => c == prime) =
      List.replicate L prime ++ l.takeWhile (fun c => c == prime) := by
  induction L with
  | zero => simp
  | succ L ih => simp [List.replicate_succ, List.takeWhile_cons, ih]

/-- Taking marker characters yields nothing when the head is not a marker. -/
theorem takeMarks_of_head (l : Name) (h : l.head? ≠ some prime) :
    l.takeWhile (fun c => c == prime) = [] := by
  cases l with
  | nil => rfl
  | cons c cs =>
    have hc : ¬ (c == prime) = true := by
      intro hcp
      exact h (by simp_all)
    simp [List.takeWhile_cons, hc]

/-- The lead-marker count of such a name is L. -/
theorem leadMarks_eq (L T : Nat) (core : Name) (h0 : core ≠ [])
    (h1 : core.head? ≠ some prime) :
    leadMarks (List.replicate L prime ++ core ++ List.replicate T prime) = L := by
  unfold leadMarks
  rw [List.append_assoc, takeMarks_replicate, takeMarks_of_head]
  · simp
  · cases core with
    | nil => exact absurd rfl h0
    | cons c cs => simpa using h1

/-- Claim C4: a functor name with L leading and T trailing temporal markers
around a clean nonempty core receives net shift T - L, depending on the
markers only through their counts. -/
theorem shift_counts_markers (core : Name) (L T : Nat) (h0 : core ≠ [])
    (h1 : core.head? ≠ some prime) (h2 : core.getLast? ≠ some prime) :
    computeShift (List.replicate L prime ++ core ++ List.replicate T prime) =
      (T : Int) - (L : Int) := by
  unfold computeShift
  rw [stripQuotes_eq L T core h0 h1 h2, leadMarks_eq L T core h0 h1]
  simp only [List.length_append, List.length_replicate]
  push_cast
  ring

/-- Witness for shift_counts_markers at core p, L = 1, T = 2. -/
theorem shift_counts_markers_witness :
    (([Char.ofNat 112] : Name) ≠ [] ∧
      ([Char.ofNat 112] : Name).head? ≠ some prime ∧
      ([Char.ofNat 112] : Name).getLast? ≠ some prime) ∧
    computeShift (List.replicate 1 prime ++ [Char.ofNat 112] ++ List.replicate 2 prime) =
      (2 : Int) - (1 : Int) :=
  ⟨⟨by decide, by decide, by decide⟩,
   shift_counts_markers [Char.ofNat 112] 1 2 (by decide) (by decide) (by decide)⟩

/-- Reading a key directly after a dict write yields the written value. -/
theorem dictGet_dictSet (m : FutureMap) (k : FKey) (v : Bool) :
    dictGet (dictSet m k v) k = some v := by
  induction m with
  | nil => simp [dictSet, dictGet]
  | cons p m ih =>
    obtain ⟨k2, v2⟩ := p
    by_cases h : k2 = k <;> simp [dictSet, dictGet, h, ih]

/-- Reading an absent key after appending its binding yields that binding. -/
theorem dictGet_append_of_none (m : FutureMap) (k : FKey) (v : Bool)
    (h : dictGet m k = none) :
    dictGet (m ++ [(k, v)]) k = some v := by
  induction m with
  | nil => simp [dictGet]
  | cons p m ih =>
    obtain ⟨k2, v2⟩ := p
    by_cases hk : k2 = k
    · simp [dictGet, hk] at h
    · simp only [List.cons_append, dictGet, hk, if_false] at h ⊢
      exact ih h

/-- Reading a key after setdefault yields the previous value if present, and
otherwise the default. -/
theorem dictGet_dictSetdefault (m : FutureMap) (k : FKey) (v : Bool) :
    dictGet (dictSetdefault m k v) k = some ((dictGet m k).getD v) := by
  unfold dictSetdefault
  by_cases h : (dictGet m k).isSome
  · obtain ⟨b, hb⟩ := Option.isSome_iff_exists.mp h
    simp [h, hb]
  · have hnone : dictGet m k = none := Option.not_isSome_iff_eq_none.mp h
    simp only [h, if_false, hnone, Option.getD_none]
    exact dictGet_append_of_none m k v hnone

/-- Claim C5: a positive-shift atom in a plain body raises the future error,
the same atom in a constraint body is accepted, a negative-shift head atom
raises the past error, and a positive-shift head atom is accepted and renamed
to the future placeholder form. -/
theorem atom_context_policy (tf tp : FuncT) (st : TTState) (c d : Bool)
    (hf : 0 < computeShift tf.name) (hp : computeShift tp.name < 0) :
    visitSymbolicAtom st tf false false d = Except.error TErr.futureErr ∧
    (visitSymbolicAtom st tf false true d).isOk = true ∧
    visitSymbolicAtom st tp true c d = Except.error TErr.pastErr ∧
    (∃ r2 st2, visitSymbolicAtom st tf true c d = Except.ok (r2, st2) ∧
      r2.name = futurePre ++ stripQuotes tf.name) := by
  have hfne : computeShift tf.name ≠ 0 := hf.ne'
  have hpne : computeShift tp.name ≠ 0 := hp.ne
  have hfnl : ¬ computeShift tf.name < 0 := by omega
  refine ⟨?_, ?_, ?_, ?_⟩
  · simp [visitSymbolicAtom, visitFunction, getParam, hf, hfne]
  · simp [visitSymbolicAtom, visitFunction, getParam, hf, hfne, hfnl, Except.isOk,
      Except.toBool]
  · simp [visitSymbolicAtom, visitFunction, getParam, hp, hpne]
  · have hmain : visitSymbolicAtom st tf true c d =
        Except.ok
          ((⟨futurePre ++ stripQuotes tf.name,
             tf.arguments ++ [STerm.sym (CSym.num (computeShift tf.name)),
               STerm.plus timeParam (STerm.sym (CSym.num (computeShift tf.name)))]⟩ : FuncT),
           ({ st with future_predicates :=
               if d then
                 (dictSet st.future_predicates
                   (stripQuotes tf.name, tf.arguments.length, computeShift tf.name) true)
               else
                 (dictSetdefault st.future_predicates
                   (stripQuotes tf.name, tf.arguments.length, computeShift tf.name) false) } :
             TTState)) := by
      simp [visitSymbolicAtom, visitFunction, getParam, hf, hfne, hfnl, mapLast]
    exact ⟨_, _, hmain, rfl⟩

/-- Witness for atom_context_policy: one trailing marker on p, one leading
marker on q. -/
theorem atom_context_policy_witness :
    (0 < computeShift [Char.ofNat 112, prime] ∧
      computeShift [prime, Char.ofNat 113] < 0) ∧
    visitSymbolicAtom ⟨[], 0⟩ ⟨[Char.ofNat 112, prime], []⟩ false false false =
      Except.error TErr.futureErr :=
  ⟨⟨by decide, by decide⟩,
   (atom_context_policy ⟨[Char.ofNat 112, prime], []⟩ ⟨[prime, Char.ofNat 113], []⟩
      ⟨[], 0⟩ false false (by decide) (by decide)).1⟩

/-- Claim C8: a head atom with positive shift s rewritten under
future-redirection is renamed to the future placeholder form, the literal
shift is prepended to the appended parameter list so that the atom's arguments
become the original ones followed by the shift and by the time parameter plus
s, the key (stripped name, original arity, s) is registered in the future
predicate registry (promoted to true when disjunctive), and the resulting atom
has original arity + 2 arguments. -/
theorem head_future_redirect (t : FuncT) (st : TTState) (c d : Bool)
    (hs : 0 < computeShift t.name) :
    visitSymbolicAtom st t true c d =
      Except.ok
        ((⟨futurePre ++ stripQuotes t.name,
           t.arguments ++ [STerm.sym (CSym.num (computeShift t.name)),
             STerm.plus timeParam (STerm.sym (CSym.num (computeShift t.name)))]⟩ : FuncT),
         ({ st with future_predicates :=
             if d then
               (dictSet st.future_predicates
                 (stripQuotes t.name, t.arguments.length, computeShift t.name) true)
             else
               (dictSetdefault st.future_predicates
                 (stripQuotes t.name, t.arguments.length, computeShift t.name) false) } :
           TTState)) ∧
    dictGet
        (if d then
          (dictSet st.future_predicates
            (stripQuotes t.name, t.arguments.length, computeShift t.name) true)
         else
          (dictSetdefault st.future_predicates
            (stripQuotes t.name, t.arguments.length, computeShift t.name) false))
        (stripQuotes t.name, t.arguments.length, computeShift t.name) =
      some
        (if d then true
         else (dictGet st.future_predicates
           (stripQuotes t.name, t.arguments.length, computeShift t.name)).getD false) ∧
    (t.arguments ++ [STerm.sym (CSym.num (computeShift t.name)),
        STerm.plus timeParam (STerm.sym (CSym.num (computeShift t.name)))]).length =
      t.arguments.length + 2 := by
  have hne : computeShift t.name ≠ 0 := hs.ne'
  have hnl : ¬ computeShift t.name < 0 := by omega
  refine ⟨?_, ?_, ?_⟩
  · simp [visitSymbolicAtom, visitFunction, getParam, hs, hne, hnl, mapLast]
  · cases d with
    | true => simp [dictGet_dictSet]
    | false => simp [dictGet_dictSetdefault]
  · simp

/-- Witness for head_future_redirect at the functor p with one trailing
marker, no arguments, empty registry. -/
theorem head_future_redirect_witness :
    0 < computeShift [Char.ofNat 112, prime] ∧
    ((⟨[Char.ofNat 112, prime], []⟩ : FuncT).arguments ++
        [STerm.sym (CSym.num (computeShift [Char.ofNat 112, prime])),
         STerm.plus timeParam
           (STerm.sym (CSym.num (computeShift [Char.ofNat 112, prime])))]).length =
      (⟨[Char.ofNat 112, prime], []⟩ : FuncT).arguments.length + 2 :=
  ⟨by decide,
   (head_future_redirect ⟨[Char.ofNat 112, prime], []⟩ ⟨[], 0⟩ false false (by decide)).2.2⟩

/-- Claim C1 (amended): for every registered key, transform synthesizes
exactly 3 auxiliary statements when the disjunctive flag is true (an external
declaration, one linking rule and the restoration rule) and exactly 1 (the
restoration rule) when it is false; the statement output of transform is the
rewritten input followed by the synthesized static program directive and the
per-key statements. -/
theorem aux_statement_counts (key : FKey) (ret0 : List Stmt) (fp : FutureMap) :
    (statementsForKey key true).length = 3 ∧
    (statementsForKey key false).length = 1 ∧
    (transformPost ret0 fp).1 =
      ret0 ++
        (if 0 < fp.length then
          Stmt.program staticName [timeParamName] ::
            fp.flatMap (fun p => statementsForKey p.1 p.2)
         else []) := by
  refine ⟨by simp [statementsForKey], by simp [statementsForKey], ?_⟩
  by_cases h : 0 < fp.length <;> simp [transformPost, h]

/-- Counterexample to claim C1 as stated: a disjunctive key receives 3
synthesized statements, not 4. -/
theorem aux_statement_counts_cex :
    (statementsForKey ([Char.ofNat 112], 0, 1) true).length = 3 ∧
    ¬ (statementsForKey ([Char.ofNat 112], 0, 1) true).length = 4 := by
  constructor
  · rfl
  · intro h
    simp [statementsForKey] at h

/-- Claim C10: when the rewriting pass registers no future predicate,
transform leaves the statement list unchanged and returns an empty future
signature list; and the reground-parts component is empty for every input. -/
theorem transform_no_future_frame (ret0 : List Stmt) :
    transformPost ret0 [] = (ret0, [], []) ∧
    ∀ fp : FutureMap, (transformPost ret0 fp).2.2 = [] := by
  constructor
  · simp [transformPost]
  · intro fp
    simp [transformPost]

/-- Claim C2: Application.main always raises before any grounding or solving,
because it calls transform with two arguments while transform takes one. -/
theorem main_transform_call_fails (oracle : Oracle) (imin : Nat) (imax : Option Nat)
    (istop : String) (fuel : Nat) (sigs : List (Name × Nat))
    (parts : List (Name × Name × List Int)) :
    applicationMain oracle imin imax istop fuel sigs parts =
      MainOutcome.errored PyErr.typeError := rfl

/-- Claim C7: at any step, (name, [step - i, step]) is requested for
grounding exactly when some part descriptor (root, name, rng) has i in rng
with root static and step - i nonnegative, or root dynamic and step - i
positive, or root initial and step - i zero. -/
theorem computeParts_mem (pp : List (Name × Name × List Int)) (step i : Int) (nm : Name) :
    (nm, [step - i, step]) ∈ computeParts pp step ↔
      ∃ root rng, (root, nm, rng) ∈ pp ∧ i ∈ rng ∧
        ((root = staticName ∧ 0 ≤ step - i) ∨ (root = dynamicName ∧ 0 < step - i) ∨
         (root = initialName ∧ step - i = 0)) := by
  constructor
  · intro h
    simp only [computeParts, List.mem_flatMap, List.mem_map, List.mem_filter] at h
    obtain ⟨p, hp, j, ⟨hjm, hcond⟩, heq⟩ := h
    have hn : p.2.1 = nm := congrArg Prod.fst heq
    have hji : j = i := by
      have h2 := congrArg Prod.snd heq
      simp only [List.cons.injEq, and_true] at h2
      omega
    subst hji
    refine ⟨p.1, p.2.2, hn ▸ (show (p.1, p.2.1, p.2.2) ∈ pp from hp), hjm, ?_⟩
    simpa [partCond, Bool.or_eq_true, Bool.and_eq_true, decide_eq_true_eq,
      beq_iff_eq, and_comm, or_assoc] using hcond
  · rintro ⟨root, rng, hmem, hi, hcond⟩
    simp only [computeParts, List.mem_flatMap, List.mem_map, List.mem_filter]
    refine ⟨(root, nm, rng), hmem, i, ⟨hi, ?_⟩, rfl⟩
    simpa [partCond, Bool.or_eq_true, Bool.and_eq_true, decide_eq_true_eq,
      beq_iff_eq, and_comm, or_assoc] using hcond

/-- The trailing-time test succeeds exactly on atoms that have a last argument
strictly beyond the step; atoms without arguments never pass, as the step is
nonnegative. -/
theorem lt_lastTime_iff (step : Nat) (a : GAtom) :
    ((step : Int) < lastTime a) ↔
      ∃ t, a.args.getLast? = some t ∧ (step : Int) < t := by
  unfold lastTime
  cases h : a.args.getLast? with
  | none => simp [h]
  | some t => simp [h]

/-- The assumption list is the negation map over the filtered grounded
atoms. -/
theorem assumptionsAt_eq (oracle : Oracle) (sigs : List (Name × Nat)) (step : Nat) :
    assumptionsAt oracle sigs step =
      (sigs.flatMap fun sg =>
        (oracle.atoms step sg).filter (fun a => decide ((step : Int) < lastTime a))).map
        (fun a => -a.literal) := by
  induction sigs with
  | nil => rfl
  | cons s ss ih =>
    simp only [assumptionsAt] at ih
    simp only [assumptionsAt, List.flatMap_cons, List.map_append]
    rw [ih]

/-- Pointwise filtering of a flatMap yields a sublist of the flatMap. -/
theorem flatMap_filter_sub {α β : Type} (l : List α) (f : α → List β) (p : β → Bool) :
    List.Sublist (l.flatMap fun x => (f x).filter p) (l.flatMap f) := by
  induction l with
  | nil => simp
  | cons x xs ih =>
    simp only [List.flatMap_cons]
    exact List.Sublist.append (List.filter_sublist _) ih

/-- Claim C6: at step k the assumption list holds a negative assumption
exactly for the grounded atoms of a future signature whose trailing time
argument exceeds k, and, when the grounded atoms carry distinct literals, no
assumption occurs twice. -/
theorem assumptions_exact (oracle : Oracle) (sigs : List (Name × Nat)) (step : Nat)
    (hnd : ((sigs.flatMap fun sg => oracle.atoms step sg).map GAtom.literal).Nodup) :
    (∀ l : Int, l ∈ assumptionsAt oracle sigs step ↔
      ∃ sg ∈ sigs, ∃ a ∈ oracle.atoms step sg,
        (∃ t, a.args.getLast? = some t ∧ (step : Int) < t) ∧ l = -a.literal) ∧
    (assumptionsAt oracle sigs step).Nodup := by
  constructor
  · intro l
    constructor
    · intro hl
      simp only [assumptionsAt, List.mem_flatMap, List.mem_map, List.mem_filter,
        decide_eq_true_eq] at hl
      obtain ⟨sg, hsg, a, ⟨ha, hlt⟩, rfl⟩ := hl
      exact ⟨sg, hsg, a, ha, (lt_lastTime_iff step a).mp hlt, rfl⟩
    · rintro ⟨sg, hsg, a, ha, hlt, rfl⟩
      simp only [assumptionsAt, List.mem_flatMap, List.mem_map, List.mem_filter,
        decide_eq_true_eq]
      exact ⟨sg, hsg, a, ⟨ha, (lt_lastTime_iff step a).mpr hlt⟩, rfl⟩
  · rw [assumptionsAt_eq]
    have hsub := flatMap_filter_sub sigs (fun sg => oracle.atoms step sg)
      (fun a => decide ((step : Int) < lastTime a))
    have h1 := hnd.sublist (hsub.map GAtom.literal)
    have h2 : ((sigs.flatMap fun sg =>
        (oracle.atoms step sg).filter (fun a => decide ((step : Int) < lastTime a))).map
        (fun a => -a.literal)) =
      ((sigs.flatMap fun sg =>
        (oracle.atoms step sg).filter (fun a => decide ((step : Int) < lastTime a))).map
        GAtom.literal).map Neg.neg := by
      rw [List.map_map]
      rfl
    rw [h2]
    exact List.Nodup.map neg_injective h1

/-- Witness for assumptions_exact on the concrete engine oracle1 at step 0. -/
theorem assumptions_exact_witness :
    ((([([Char.ofNat 102], 2)] : List (Name × Nat)).flatMap
        (fun sg => oracle1.atoms 0 sg)).map GAtom.literal).Nodup ∧
    (assumptionsAt oracle1 [([Char.ofNat 102], 2)] 0).Nodup :=
  ⟨by decide, (assumptions_exact oracle1 [([Char.ofNat 102], 2)] 0 (by decide)).2⟩

/-- Counterexample to claim C3 as stated: with maximum iteration count 0 the
loop performs no solve call at all. -/
theorem imain_zero_solves_cex :
    countSolves (imainTrace oracle0 [] [] 0 (some 0) "SAT" 5) = 0 := by decide

/-- Claim C3 (amended): whenever the maximum iteration count is not 0 (absent
or positive) and at least one loop unfolding is available, imain performs at
least one solve call. -/
theorem imain_solves_once (oracle : Oracle) (sigs : List (Name × Nat))
    (parts : List (Name × Name × List Int)) (imin : Nat) (imax : Option Nat)
    (istop : String) (fuel : Nat) (hfuel : 1 ≤ fuel) (himax : imax ≠ some 0) :
    1 ≤ countSolves (imainTrace oracle sigs parts imin imax istop fuel) := by
  obtain ⟨f, rfl⟩ : ∃ f, fuel = f + 1 := ⟨fuel - 1, by omega⟩
  have hcond : loopCond imin imax istop 0 none = true := by
    unfold loopCond
    cases imax with
    | none => simp
    | some m =>
      have hm : 0 < m := by
        rcases Nat.eq_zero_or_pos m with h | h
        · exact absurd (by rw [h]) himax
        · exact h
      simp [hm]
  unfold imainTrace imainAux
  rw [hcond]
  simp only [if_true, countSolves, solveSteps, List.filterMap_append, List.length_append]
  have : (List.filterMap
      (fun e => match e with | Event.solve s _ => some s | _ => none)
      (imainStepEvents oracle sigs parts 0)).length = 1 := by
    simp [imainStepEvents]
  omega

/-- Witness for imain_solves_once with unbounded imax and fuel 5. -/
theorem imain_solves_once_witness :
    (1 ≤ 5 ∧ (none : Option Nat) ≠ some 0) ∧
    1 ≤ countSolves (imainTrace oracle0 [] [] 0 none "SAT" 5) :=
  ⟨⟨by decide, by decide⟩,
   imain_solves_once oracle0 [] [] 0 none "SAT" 5 (by decide) (by decide)⟩

/-- One loop iteration performs exactly one solve call, at its own step. -/
theorem solveSteps_block (oracle : Oracle) (sigs : List (Name × Nat))
    (parts : List (Name × Name × List Int)) (step : Nat) :
    solveSteps (imainStepEvents oracle sigs parts step) = [step] := by
  cases step with
  | zero => simp [imainStepEvents, solveSteps]
  | succ m => simp [imainStepEvents, solveSteps]

/-- The steps of the solve calls of any loop suffix form a contiguous range
starting at the entry step. -/
theorem solveSteps_aux (oracle : Oracle) (sigs : List (Name × Nat))
    (parts : List (Name × Name × List Int)) (imin : Nat) (imax : Option Nat)
    (istop : String) :
    ∀ (fuel step : Nat) (ret : Option SolveResult), ∃ m,
      solveSteps (imainAux oracle sigs parts imin imax istop fuel step ret) =
        List.range' step m := by
  intro fuel
  induction fuel with
  | zero => intro step ret; exact ⟨0, by simp [imainAux, solveSteps]⟩
  | succ f ih =>
    intro step ret
    by_cases hc : loopCond imin imax istop step ret = true
    · obtain ⟨m, hm⟩ := ih (step + 1) (some (oracle.result step))
      refine ⟨m + 1, ?_⟩
      simp only [imainAux, hc, if_true, solveSteps, List.filterMap_append]
      rw [show List.filterMap
          (fun e => match e with | Event.solve s _ => some s | _ => none)
          (imainStepEvents oracle sigs parts step) = [step] from
        solveSteps_block oracle sigs parts step]
      rw [show List.filterMap
          (fun e => match e with | Event.solve s _ => some s | _ => none)
          (imainAux oracle sigs parts imin imax istop f (step + 1)
            (some (oracle.result step))) = List.range' (step + 1) m from hm]
      rfl
    · exact ⟨0, by simp [imainAux, hc, solveSteps]⟩

/-- Folding one full loop iteration over a finality-marker set containing at
most the previous marker leaves exactly the current marker. -/
theorem foldl_block_full (oracle : Oracle) (sigs : List (Name × Nat))
    (parts : List (Name × Name × List Int)) (step : Nat) (cur : List Nat)
    (hcur : cur = [] ∨ cur = [step - 1]) :
    List.foldl stepFinals cur (imainStepEvents oracle sigs parts step) = [step] := by
  rcases hcur with rfl | rfl <;> cases step <;>
    simp [imainStepEvents, stepFinals]

/-- Every partial fold of one loop iteration keeps at most one finality
marker. -/
theorem foldl_block_take (oracle : Oracle) (sigs : List (Name × Nat))
    (parts : List (Name × Name × List Int)) (step : Nat) (cur : List Nat)
    (hcur : cur = [] ∨ cur = [step - 1]) (n : Nat) :
    (List.foldl stepFinals cur
      ((imainStepEvents oracle sigs parts step).take n)).length ≤ 1 := by
  rcases hcur with rfl | rfl <;> cases step <;>
    rcases n with _ | _ | _ | _ | _ | _ | n <;>
    simp [imainStepEvents, stepFinals, List.take]

/-- Along any prefix of the loop trace, at most one finality marker is
assigned true, provided at most the previous marker is set on entry. -/
theorem finals_take_aux (oracle : Oracle) (sigs : List (Name × Nat))
    (parts : List (Name × Name × List Int)) (imin : Nat) (imax : Option Nat)
    (istop : String) :
    ∀ (fuel step : Nat) (ret : Option SolveResult) (cur : List Nat),
      (cur = [] ∨ cur = [step - 1]) →
      ∀ n, (List.foldl stepFinals cur
        ((imainAux oracle sigs parts imin imax istop fuel step ret).take n)).length ≤ 1 := by
  intro fuel
  induction fuel with
  | zero =>
    intro step ret cur hcur n
    rcases hcur with rfl | rfl <;> simp [imainAux]
  | succ f ih =>
    intro step ret cur hcur n
    by_cases hc : loopCond imin imax istop step ret = true
    · have hunf : imainAux oracle sigs parts imin imax istop (f + 1) step ret =
          imainStepEvents oracle sigs parts step ++
            imainAux oracle sigs parts imin imax istop f (step + 1)
              (some (oracle.result step)) := by
        simp [imainAux, hc]
      rw [hunf, List.take_append_eq_append_take, List.foldl_append]
      by_cases hn : n ≤ (imainStepEvents oracle sigs parts step).length
      · have h0 : n - (imainStepEvents oracle sigs parts step).length = 0 := by omega
        rw [h0]
        simp only [List.take_zero, List.foldl_nil]
        exact foldl_block_take oracle sigs parts step cur hcur n
      · have hfull : (imainStepEvents oracle sigs parts step).take n =
            imainStepEvents oracle sigs parts step :=
          List.take_of_length_le (by omega)
        rw [hfull, foldl_block_full oracle sigs parts step cur hcur]
        exact ih (step + 1) _ [step] (Or.inr (by simp)) _
    · have hnil : imainAux oracle sigs parts imin imax istop (f + 1) step ret = [] := by
        simp [imainAux, hc]
      rcases hcur with rfl | rfl <;> simp [hnil]

/-- Claim C9: across the loop the solve steps are exactly 0, 1, 2, ...
(the step counter advances by exactly one per iteration), and after every
prefix of the interaction trace at most one finality marker is assigned true,
the previous marker being released before the next is asserted. -/
theorem imain_horizon_finals (oracle : Oracle) (sigs : List (Name × Nat))
    (parts : List (Name × Name × List Int)) (imin : Nat) (imax : Option Nat)
    (istop : String) (fuel : Nat) :
    solveSteps (imainTrace oracle sigs parts imin imax istop fuel) =
      List.range (countSolves (imainTrace oracle sigs parts imin imax istop fuel)) ∧
    ∀ n, (finalsTrue ((imainTrace oracle sigs parts imin imax istop fuel).take n)).length ≤ 1 := by
  constructor
  · obtain ⟨m, hm⟩ := solveSteps_aux oracle sigs parts imin imax istop fuel 0 none
    unfold imainTrace countSolves at *
    rw [hm, List.length_range', List.range_eq_range']
  · intro n
    have h := finals_take_aux oracle sigs parts imin imax istop fuel 0 none [] (Or.inl rfl) n
    simpa [finalsTrue, imainTrace] using h

/-- Counterexample to claim C6 as stated: the registry of a program with the
two head atoms p at shift 1 and p at shift 2 makes transform emit the same
future signature twice, and the loop then builds the identical negative
assumption once per duplicate entry, so a single matching grounded atom
receives two assumptions rather than exactly one. -/
theorem assumptions_dup_cex :
    (transformPost []
        [(([Char.ofNat 112], 0, 1), false), (([Char.ofNat 112], 0, 2), false)]).2.1 =
      [(futurePre ++ [Char.ofNat 112], 2), (futurePre ++ [Char.ofNat 112], 2)] ∧
    assumptionsAt oracle2
        (transformPost []
          [(([Char.ofNat 112], 0, 1), false), (([Char.ofNat 112], 0, 2), false)]).2.1 0 =
      [-7, -7] ∧
    ¬ (assumptionsAt oracle2
        (transformPost []
          [(([Char.ofNat 112], 0, 1), false), (([Char.ofNat 112], 0, 2), false)]).2.1 0).count (-7) = 1 := by
  refine ⟨by decide, by decide, by decide⟩
